import Mathlib

/-!
# Verification of the NuSvg breakpoint engine (src/nusvg.js)

Shallow embedding of the core logic of `nusvg.js`:

* `NuSvg.jsParseInt` models JavaScript `parseInt(s)` (no radix argument):
  NaN is modelled as `none`.
* `NuSvg.replaceFrom` models `String.prototype.replace` with the regex
  `/translate\((.*)\)/` and a replacement string: the regex matches at the
  leftmost position where the literal `translate(` is followed (with no
  line terminator in between, since `.` does not match line terminators)
  by a `)`; the greedy `(.*)` extends the match to the last such `)`.
  The replacement string is inserted literally; this is faithful to
  JavaScript whenever the replacement contains no `$` character (the
  composer builds `translate(X,Y)` strings).
* `NuSvg.composeTransform` models the transform-composition block of
  `NuSvg.prototype.applyData` (lines 165-171).
* `NuSvg.elemWrites` / `NuSvg.applyData` model `NuSvg.prototype.applyData`
  as a function from a document lookup and a per-element attribute bag to
  the list of emitted style/attribute writes, in emission order
  (`applyStyle` and `applyAttribute` are no-ops when the element is
  missing, so a missing element emits no write).
* `NuSvg.processTrace` models `NuSvg.prototype.process` together with
  `applyContainerQuery`/`applyQuery` as a function from the variation
  list and the measured width to the ordered list of data patches passed
  to `applyData`; JavaScript numbers that may be NaN are `Option ℚ`, and
  the only runtime error reachable in this fragment (a property access on
  `undefined`) is modelled with `Except`.
-/

namespace NuSvg

/-- Character list standing for a JavaScript string. -/
abbrev Str := List Char

/-- JavaScript whitespace recognised by `parseInt` before the number
    (space, tab, line feed, carriage return, vertical tab, form feed,
    no-break space). -/
def jsWhitespace (c : Char) : Bool :=
  c == ' ' || c == '\t' || c == '\n' || c == '\r' ||
  c == '\x0b' || c == '\x0c' || c == '\xa0'

/-- Decimal digit test. -/
def isDigitC (c : Char) : Bool := '0' ≤ c && c ≤ '9'

/-- Hexadecimal digit test. -/
def isHexC (c : Char) : Bool :=
  isDigitC c || ('a' ≤ c && c ≤ 'f') || ('A' ≤ c && c ≤ 'F')

/-- Value of a decimal digit. -/
def digitVal (c : Char) : Nat := c.toNat - '0'.toNat

/-- Value of a hexadecimal digit. -/
def hexVal (c : Char) : Nat :=
  if isDigitC c then c.toNat - '0'.toNat
  else if 'a' ≤ c && c ≤ 'f' then c.toNat - 'a'.toNat + 10
  else c.toNat - 'A'.toNat + 10

/-- Accumulate digit values in the given base. -/
def natOfDigits (base : Nat) (f : Char → Nat) (l : List Char) : Nat :=
  l.foldl (fun a c => a * base + f c) 0

/-- Longest prefix of decimal digits, `none` when there is none
    (`parseInt` returns NaN in that case). -/
def decimalPart (s : Str) : Option Nat :=
  let ds := s.takeWhile isDigitC
  if ds.isEmpty then none else some (natOfDigits 10 digitVal ds)

/-- Unsigned part of `parseInt`: a `0x`/`0X` prefix switches to
    hexadecimal, otherwise the longest decimal-digit prefix is taken. -/
def parseUnsigned (s : Str) : Option Nat :=
  match s with
  | '0' :: c :: r =>
    if c == 'x' || c == 'X' then
      let ds := r.takeWhile isHexC
      if ds.isEmpty then none else some (natOfDigits 16 hexVal ds)
    else decimalPart s
  | _ => decimalPart s

/-- JavaScript `parseInt(s)` (radix argument omitted): skip leading
    whitespace, optional sign, then `0x` hexadecimal or decimal digits;
    `none` models NaN.  (Float precision loss on huge literals is outside
    the modelled fragment.) -/
def jsParseInt (s : Str) : Option Int :=
  let s1 := s.dropWhile jsWhitespace
  match s1 with
  | '-' :: r => (parseUnsigned r).map (fun n => -(n : Int))
  | '+' :: r => (parseUnsigned r).map (fun n => (n : Int))
  | _ => (parseUnsigned s1).map (fun n => (n : Int))

/-! ## Transform composer (applyData lines 165-171) -/

/-- The literal part `translate(` of the regex `/translate\((.*)\)/`. -/
def patT : Str := ['t', 'r', 'a', 'n', 's', 'l', 'a', 't', 'e', '(']

/-- The substring `translate` looked up by `indexOf('translate')`. -/
def subT : Str := ['t', 'r', 'a', 'n', 's', 'l', 'a', 't', 'e']

/-- Characters the regex metacharacter `.` does not match
    (ECMAScript line terminators). -/
def isLineTermC (c : Char) : Bool :=
  c == '\n' || c == '\r' || c == '\u2028' || c == '\u2029'

/-- Characters matched by `.` in the regex. -/
def noTerm (c : Char) : Bool := !(isLineTermC c)

/-- Split a list at its last `')'`: `lastParenSplit l = some (b, a)`
    when `l = b ++ ')' :: a` with no `')'` in `a`. -/
def lastParenSplit : Str → Option (Str × Str)
  | [] => none
  | c :: cs =>
    match lastParenSplit cs with
    | some (b, a) => some (c :: b, a)
    | none => if c == ')' then some ([], cs) else none

/-- Greedy part of the regex match: after the literal `translate(`, the
    greedy `(.*)` runs to the last `')'` reachable without crossing a
    line terminator.  Returns the remainder of the string after the
    matched `')'`, or `none` when no `')'` is reachable. -/
def greedyTail (rest : Str) : Option Str :=
  match lastParenSplit (rest.takeWhile noTerm) with
  | some (_, a) => some (a ++ rest.dropWhile noTerm)
  | none => none

/-- Whole-regex match attempt at the head of `s`: the literal
    `translate(` must be a prefix, then the greedy part must find a
    `')'`.  Returns the remainder after the match. -/
def matchTail (s : Str) : Option Str :=
  if patT.isPrefixOf s then greedyTail (s.drop 10) else none

/-- `s.replace(/translate\((.*)\)/, repl)`: scan left to right for the
    first position where the regex matches, splice in `repl` (literally;
    faithful when `repl` has no `'$'`), return `s` unchanged when the
    regex never matches. -/
def replaceFrom (repl : Str) : Str → Str
  | [] => []
  | c :: cs =>
    match matchTail (c :: cs) with
    | some tail => repl ++ tail
    | none => c :: replaceFrom repl cs

/-- `s.indexOf(p) != -1`: `p` occurs as a contiguous substring of `s`. -/
def containsSub (p : Str) : Str → Bool
  | [] => p.isEmpty
  | c :: cs => p.isPrefixOf (c :: cs) || containsSub p cs

/-- The transform-composition block of `applyData` (lines 165-171):
    `existing` is the literal `transform` value captured from the patch,
    `translateVal` the `translate(X,Y)` string built from `x`/`y`
    (`none` when neither was present, modelling `null`).

    ```js
    if (transformValue && transformValue != '') {
      if (translateValue)
        transformValue = transformValue.indexOf('translate') != -1
          ? transformValue.replace(/translate\((.*)\)/, translateValue)
          : transformValue + ' ' + translateValue;
    } else {
      transformValue = translateValue ? translateValue : '';
    }
    ``` -/
def composeTransform (existing : Str) (translateVal : Option Str) : Str :=
  if existing.isEmpty then
    match translateVal with
    | some tv => tv
    | none => []
  else
    match translateVal with
    | some tv =>
      if containsSub subT existing then replaceFrom tv existing
      else existing ++ ' ' :: tv
    | none => existing

/-- `'translate(' + X + ',' + Y + ')'` as built on line 165. -/
def mkTranslate (x y : Str) : Str := patT ++ x ++ ',' :: (y ++ [')'])

/-! ## Attribute applier (applyData / applyStyle / applyAttribute) -/

/-- One emitted host-document write: a style-property assignment
    (`applyStyle`, `isStyle = true`) or a `setAttribute` call
    (`applyAttribute`, `isStyle = false`). -/
structure Write where
  isStyle : Bool
  elemId : Str
  name : Str
  value : Str
deriving DecidableEq

/-- Loop state of the per-element `for (var attr in elAttributes)` loop:
    pending `x`/`y` (`translateData`), captured `transform` string, and
    style writes already emitted. -/
structure ElemAcc where
  xVal : Option Str
  yVal : Option Str
  transformVal : Str
  writes : List Write
deriving DecidableEq

/-- `applyStyle` emits a write only when the element resolved
    (`if (data.element)`). -/
def styleWriteIf (ex : Bool) (el name v : Str) : List Write :=
  if ex then [⟨true, el, name, v⟩] else []

/-- One iteration of the attribute switch in `applyData`:
    `x`/`y` accumulate, `display`/`fill` emit style writes immediately,
    `transform` is captured, every other key is ignored. -/
def applyAttrStep (ex : Bool) (el : Str) (acc : ElemAcc) (kv : Str × Str) :
    ElemAcc :=
  if kv.1 == "x".toList then { acc with xVal := some kv.2 }
  else if kv.1 == "y".toList then { acc with yVal := some kv.2 }
  else if kv.1 == "display".toList then
    { acc with writes := acc.writes ++ styleWriteIf ex el "display".toList kv.2 }
  else if kv.1 == "fill".toList then
    { acc with writes := acc.writes ++ styleWriteIf ex el "fill".toList kv.2 }
  else if kv.1 == "transform".toList then { acc with transformVal := kv.2 }
  else acc

/-- `translateData.x ? translateData.x : 0`: a missing or empty (falsy)
    string coordinate is replaced by `0`. -/
def jsStrTruthyOr0 : Option Str → Str
  | some v => if v.isEmpty then "0".toList else v
  | none => "0".toList

/-- A per-element attribute bag (`queryData[el]`), in iteration order. -/
abbrev AttrBag := List (Str × Str)

/-- A variation's `data` object: element id to attribute bag, in
    iteration order. -/
abbrev Patch := List (Str × AttrBag)

instance : DecidableEq AttrBag := inferInstance

instance : DecidableEq Patch := inferInstance

instance : DecidableEq (List Patch) := inferInstance

/-- Writes emitted by `applyData` for one element id: resolve the
    element (`document.getElementById`), run the attribute switch, build
    `translateValue` when `x` or `y` occurred (`Object.keys` length
    check), compose, and emit the final `transform` attribute write when
    the composed string is non-empty and the element resolved. -/
def elemWrites (docLookup : Str → Bool) (el : Str) (attrs : AttrBag) :
    List Write :=
  let ex := docLookup el
  let acc := attrs.foldl (applyAttrStep ex el) ⟨none, none, [], []⟩
  let translateVal :=
    if acc.xVal.isSome || acc.yVal.isSome then
      some (mkTranslate (jsStrTruthyOr0 acc.xVal) (jsStrTruthyOr0 acc.yVal))
    else none
  let tf := composeTransform acc.transformVal translateVal
  acc.writes ++ (if !tf.isEmpty && ex then [⟨false, el, "transform".toList, tf⟩] else [])

/-- `NuSvg.prototype.applyData`: writes emitted for a whole patch, one
    element id after the other in iteration order. -/
def applyData (docLookup : Str → Bool) (patch : Patch) : List Write :=
  (patch.map (fun p => elemWrites docLookup p.1 p.2)).flatten

/-- Last style value written for a given element id and property name
    (the fill observed after all writes ran, by last-write-wins). -/
def finalStyleValue (ws : List Write) (el name : Str) : Option Str :=
  ((ws.filter (fun w => w.isStyle && w.elemId == el && w.name == name)).map
    (fun w => w.value)).getLast?

/-! ## Variation resolver (process / applyContainerQuery / applyQuery) -/

/-- One entry of the variation list (`{query: key, data: {...}}`). -/
structure Query where
  query : Str
  data : Patch
deriving DecidableEq

/-- `query.query == "default"`. -/
def isDefaultQ (q : Query) : Bool := q.query == "default".toList

/-- The runtime error reachable in this fragment: a property access on
    `undefined` (missing default entry dereferenced, or
    `queries[queries.length-1]` on an empty list). -/
inductive JsErr where
  | typeError
deriving DecidableEq

instance {e a : Type} [DecidableEq e] [DecidableEq a] : DecidableEq (Except e a) :=
  fun x y =>
  match x, y with
  | .error u, .error v =>
    if h : u = v then isTrue (by rw [h]) else isFalse (by intro hc; cases hc; exact h rfl)
  | .ok u, .ok v =>
    if h : u = v then isTrue (by rw [h]) else isFalse (by intro hc; cases hc; exact h rfl)
  | .error _, .ok _ => isFalse (by intro hc; cases hc)
  | .ok _, .error _ => isFalse (by intro hc; cases hc)

/-- `parseInt(query.query.substr(1))`: the key with its first character
    removed, parsed; `none` models NaN. -/
def parseKeyNum (q : Query) : Option Int := jsParseInt (q.query.drop 1)

/-- A JavaScript number that may be NaN. -/
abbrev JsNum := Option ℚ

/-- Threshold as a JavaScript number. -/
def keyNum (q : Query) : JsNum := (parseKeyNum q).map (fun i => (i : ℚ))

/-- `a < b` on JavaScript numbers: false when either side is NaN. -/
def jsLt (a b : JsNum) : Bool :=
  match a, b with
  | some x, some y => decide (x < y)
  | _, _ => false

/-- `a > b` on JavaScript numbers: false when either side is NaN. -/
def jsGt (a b : JsNum) : Bool :=
  match a, b with
  | some x, some y => decide (y < x)
  | _, _ => false

/-- `queryData.max` (process line 77): `0` for the default entry,
    otherwise the parsed key threshold. -/
def queryMax (q : Query) : JsNum :=
  if isDefaultQ q then some 0 else keyNum q

/-- `queryData.min` (process lines 79-89): `0` for the default entry, at
    index 0 (`prev = none`), or when the immediately preceding entry is
    the default; otherwise the immediately preceding entry's parsed
    threshold. -/
def queryMin (prev : Option Query) (q : Query) : JsNum :=
  if isDefaultQ q then some 0
  else
    match prev with
    | none => some 0
    | some p => if isDefaultQ p then some 0 else keyNum p

/-- The non-last branch of `applyContainerQuery` (line 114):
    `width > data.min && width < data.max`. -/
def queryMatches (w : JsNum) (prev : Option Query) (q : Query) : Bool :=
  jsGt w (queryMin prev q) && jsLt w (queryMax q)

/-- One `forEach` iteration of `process`: on a match, `applyQuery`
    applies the default's data then the matched entry's data; with no
    default entry configured the `defaultQuery.data` access throws. -/
def stepQuery (dq : Option Query) (w : JsNum) (prev : Option Query)
    (q : Query) : Except JsErr (List Patch) :=
  if queryMatches w prev q then
    match dq with
    | some d => .ok [d.data, q.data]
    | none => .error .typeError
  else .ok []

/-- The whole `queries.forEach` loop of `process`, threading the
    previous entry (index arithmetic of lines 80-88). -/
def loopTrace (dq : Option Query) (w : JsNum) :
    Option Query → List Query → Except JsErr (List Patch)
  | _, [] => .ok []
  | prev, q :: rest =>
    match stepQuery dq w prev q with
    | .error e => .error e
    | .ok h =>
      match loopTrace dq w (some q) rest with
      | .error e => .error e
      | .ok t => .ok (h ++ t)

/-- `queries.filter(q => q.query == "default")[0]`. -/
def findDefault (qs : List Query) : Option Query := qs.find? isDefaultQ

/-- Lines 93-96 of `process` plus the `isLast` branch of
    `applyContainerQuery`: parse the last entry's key and apply the
    default's data alone when `width > max`; an empty list makes
    `queries[queries.length-1].query` throw. -/
def lastCheck (dq : Option Query) (w : JsNum) (qs : List Query) :
    Except JsErr (List Patch) :=
  match qs.getLast? with
  | none => .error .typeError
  | some lq =>
    if jsGt w (keyNum lq) then
      match dq with
      | some d => .ok [d.data]
      | none => .error .typeError
    else .ok []

/-- `NuSvg.prototype.process` at measured width `w`: the ordered list of
    data patches handed to `applyData` in one resolution cycle. -/
def processTrace (qs : List Query) (w : JsNum) : Except JsErr (List Patch) :=
  match loopTrace (findDefault qs) w none qs with
  | .error e => .error e
  | .ok lt =>
    match lastCheck (findDefault qs) w qs with
    | .error e => .error e
    | .ok lc => .ok (lt ++ lc)

/-- One full resolution cycle observed at the host document: the write
    sequence produced by `process` at width `w`. -/
def processWrites (docLookup : Str → Bool) (qs : List Query) (w : JsNum) :
    Except JsErr (List Write) :=
  match processTrace qs w with
  | .error e => .error e
  | .ok ps => .ok ((ps.map (applyData docLookup)).flatten)

/-- Modelled from the spec (for claim C4 only): the claimed `min` of the
    entry at position `i` — the threshold of the last non-default entry
    strictly before position `i`, or `0` when no non-default entry
    precedes it ("min = the previous non-default entry's threshold, with
    the default entry excluded from range computation wherever it
    appears in the list"). -/
def claimedMin (qs : List Query) (i : Nat) : JsNum :=
  match ((qs.take i).filter (fun q => !(isDefaultQ q))).getLast? with
  | none => some 0
  | some p => keyNum p

/-! ## Predicates used by the theorems -/

/-- Every character is matched by the regex metacharacter `.`
    (no line terminator). -/
def CleanStr (l : Str) : Prop := ∀ c ∈ l, noTerm c = true

instance (l : Str) : Decidable (CleanStr l) := List.decidableBAll _ l

/-- No `')'` is reachable from the start of `l` without first crossing a
    line terminator: a greedy regex match never extends into `l`. -/
def Blocked (l : Str) : Prop := ')' ∉ l.takeWhile noTerm

instance (l : Str) : Decidable (Blocked l) :=
  inferInstanceAs (Decidable (')' ∉ l.takeWhile noTerm))

/-- The regex match fails at every position strictly inside `A` of the
    string `A ++ z`. -/
def NoStart (A z : Str) : Prop :=
  ∀ A₁ A₂, A = A₁ ++ A₂ → A₂ ≠ [] → matchTail (A₂ ++ z) = none

/-- The `min` the loop will derive from previous entry `p` is `b`:
    `p` is the default (min 0) or parses to threshold `b`. -/
def prevBound (p : Query) (b : ℚ) : Prop :=
  (isDefaultQ p = true ∧ b = 0) ∨ (isDefaultQ p = false ∧ keyNum p = some b)

/-- Every entry's key parses, and the parsed thresholds are strictly
    ascending starting strictly above `b`. -/
def ascThresholds (b : ℚ) : List Query → Bool
  | [] => true
  | q :: rest =>
    match parseKeyNum q with
    | some v => decide (b < (v : ℚ)) && ascThresholds (v : ℚ) rest
    | none => false

/-! ## Concrete inputs taken from the claims -/

/-- `{key: "default", data: {a: {fill: "red"}}}`. -/
def qDefRed : Query := ⟨"default".toList, [("a".toList, [("fill".toList, "red".toList)])]⟩

/-- `{key: ">400", data: {a: {fill: "blue"}}}`. -/
def qGt400Blue : Query := ⟨">400".toList, [("a".toList, [("fill".toList, "blue".toList)])]⟩

/-- The variation list of claim C1. -/
def qsC1 : List Query := [qDefRed, qGt400Blue]

/-- A host document containing exactly the element id `a`. -/
def docHasA : Str → Bool := fun el => el == "a".toList

/-- `{key: ">200", data: {b: {fill: "green"}}}`. -/
def qGt200Green : Query := ⟨">200".toList, [("b".toList, [("fill".toList, "green".toList)])]⟩

/-- A spec-valid list (one default anywhere, non-defaults ascending)
    with the default in the middle. -/
def qsMid : List Query := [qGt200Green, qDefRed, qGt400Blue]

/-- `{key: ">600", data: {}}` — the entry adjacent to `">400"`. -/
def qGt600 : Query := ⟨">600".toList, []⟩

/-- `{key: ">abc", data: {a: {fill: "blue"}}}` — malformed threshold. -/
def qBadKey : Query := ⟨">abc".toList, [("a".toList, [("fill".toList, "blue".toList)])]⟩

/-- A list with a default and a malformed non-default key. -/
def qsBad : List Query := [qDefRed, qBadKey]

/-! ## Generic list lemmas -/

theorem isPrefixOf_iff (p s : Str) : p.isPrefixOf s = true ↔ ∃ r, s = p ++ r := by
  induction p generalizing s with
  | nil =>
    constructor
    · intro _; exact ⟨s, rfl⟩
    · intro _; cases s <;> simp [List.isPrefixOf]
  | cons a p ih =>
    cases s with
    | nil =>
      simp only [List.isPrefixOf]
      constructor
      · intro h; exact absurd h (by simp)
      · rintro ⟨r, hr⟩; exact absurd hr (by simp)
    | cons b s' =>
      simp only [List.isPrefixOf, Bool.and_eq_true, beq_iff_eq, ih, List.cons_append,
        List.cons.injEq]
      constructor
      · rintro ⟨rfl, r, rfl⟩; exact ⟨r, rfl, rfl⟩
      · rintro ⟨r, rfl, rfl⟩; exact ⟨rfl, r, rfl⟩

theorem takeWhile_append_all {p : Char → Bool} {l : Str} (z : Str)
    (h : ∀ c ∈ l, p c = true) : (l ++ z).takeWhile p = l ++ z.takeWhile p := by
  induction l with
  | nil => simp
  | cons a l' ih =>
    rw [List.cons_append, List.takeWhile_cons_of_pos (h a (by simp)), List.cons_append,
      ih (fun c hc => h c (by simp [hc]))]

theorem dropWhile_append_all {p : Char → Bool} {l : Str} (z : Str)
    (h : ∀ c ∈ l, p c = true) : (l ++ z).dropWhile p = z.dropWhile p := by
  induction l with
  | nil => simp
  | cons a l' ih =>
    rw [List.cons_append, List.dropWhile_cons_of_pos (h a (by simp)),
      ih (fun c hc => h c (by simp [hc]))]

theorem takeWhile_append_stop {p : Char → Bool} {l : Str} (z : Str)
    (h : ∃ c ∈ l, p c = false) : (l ++ z).takeWhile p = l.takeWhile p := by
  induction l with
  | nil => obtain ⟨c, hc, _⟩ := h; simp at hc
  | cons a l' ih =>
    by_cases pa : p a = true
    · rw [List.cons_append, List.takeWhile_cons_of_pos pa, List.takeWhile_cons_of_pos pa,
        ih ?_]
      obtain ⟨c, hc, hpc⟩ := h
      rcases List.mem_cons.mp hc with rfl | hc'
      · rw [pa] at hpc; exact absurd hpc (by simp)
      · exact ⟨c, hc', hpc⟩
    · rw [List.cons_append, List.takeWhile_cons_of_neg pa, List.takeWhile_cons_of_neg pa]

theorem takeWhile_dropWhile_nil {p : Char → Bool} (l : Str) :
    (l.dropWhile p).takeWhile p = [] := by
  induction l with
  | nil => rfl
  | cons a l' ih =>
    by_cases pa : p a = true
    · rw [List.dropWhile_cons_of_pos pa]; exact ih
    · rw [List.dropWhile_cons_of_neg pa, List.takeWhile_cons_of_neg pa]

theorem containsSub_iff (p s : Str) :
    containsSub p s = true ↔ ∃ a b, s = a ++ p ++ b := by
  induction s with
  | nil =>
    simp only [containsSub, List.isEmpty_iff]
    constructor
    · rintro rfl; exact ⟨[], [], rfl⟩
    · rintro ⟨a, b, hab⟩
      rcases List.append_eq_nil.mp (List.append_eq_nil.mp hab.symm).1 with ⟨_, h2⟩
      exact h2
  | cons c cs ih =>
    simp only [containsSub, Bool.or_eq_true, isPrefixOf_iff, ih]
    constructor
    · rintro (⟨r, hr⟩ | ⟨a, b, hab⟩)
      · exact ⟨[], r, by simpa using hr⟩
      · exact ⟨c :: a, b, by simp [hab]⟩
    · rintro ⟨a, b, hab⟩
      cases a with
      | nil => exact Or.inl ⟨b, by simpa using hab⟩
      | cons a0 a' =>
        right
        rcases List.cons.injEq .. ▸ hab with ⟨_, h2⟩
        exact ⟨a', b, by simpa using h2⟩

/-! ## Lemmas about the greedy regex match -/

theorem lastParenSplit_eq_none {l : Str} : lastParenSplit l = none ↔ ')' ∉ l := by
  induction l with
  | nil => simp [lastParenSplit]
  | cons c cs ih =>
    cases h : lastParenSplit cs with
    | some ba =>
      have : ')' ∈ cs := by
        by_contra hmem
        rw [ih.mpr hmem] at h; exact absurd h (by simp)
      simp [lastParenSplit, h, this]
    | none =>
      have hmem : ')' ∉ cs := ih.mp h
      by_cases hc : c = ')'
      · subst hc; simp [lastParenSplit, h]
      · simp [lastParenSplit, h, hc, Ne.symm hc, hmem]

theorem lastParenSplit_sound :
    ∀ {l b a : Str}, lastParenSplit l = some (b, a) → l = b ++ ')' :: a ∧ ')' ∉ a := by
  intro l
  induction l with
  | nil => intro b a h; exact absurd h (by simp [lastParenSplit])
  | cons c cs ih =>
    intro b a h
    cases hcs : lastParenSplit cs with
    | some ba =>
      obtain ⟨b', a'⟩ := ba
      rw [lastParenSplit, hcs] at h
      obtain ⟨rfl, rfl⟩ : b = c :: b' ∧ a = a' := by
        constructor <;> [exact (Prod.mk.injEq .. ▸ (Option.some.inj h)).1.symm;
          exact (Prod.mk.injEq .. ▸ (Option.some.inj h)).2.symm]
      obtain ⟨h1, h2⟩ := ih hcs
      exact ⟨by rw [List.cons_append, ← h1], h2⟩
    | none =>
      rw [lastParenSplit, hcs] at h
      by_cases hc : c = ')'
      · subst hc
        simp only [if_pos rfl] at h
        obtain ⟨rfl, rfl⟩ : b = [] ∧ a = cs := by
          constructor <;> [exact (Prod.mk.injEq .. ▸ (Option.some.inj h)).1.symm;
            exact (Prod.mk.injEq .. ▸ (Option.some.inj h)).2.symm]
        exact ⟨rfl, lastParenSplit_eq_none.mp hcs⟩
      · rw [if_neg (by simpa using hc)] at h
        exact absurd h (by simp)

theorem lastParenSplit_last {b a : Str} (h : ')' ∉ a) :
    lastParenSplit (b ++ ')' :: a) = some (b, a) := by
  induction b with
  | nil =>
    rw [List.nil_append, lastParenSplit, lastParenSplit_eq_none.mpr h]
    simp
  | cons c b' ih => rw [List.cons_append, lastParenSplit, ih]

theorem greedyTail_eq_none {rest : Str} : greedyTail rest = none ↔ Blocked rest := by
  unfold greedyTail Blocked
  cases h : lastParenSplit (rest.takeWhile noTerm) with
  | some ba =>
    have : ')' ∈ rest.takeWhile noTerm := by
      by_contra hmem
      rw [lastParenSplit_eq_none.mpr hmem] at h; exact absurd h (by simp)
    simp [this]
  | none => simp [lastParenSplit_eq_none.mp h]

theorem noTerm_paren : noTerm ')' = true := by decide

theorem greedyTail_clean {body tail : Str} (hb : CleanStr body) (ht : Blocked tail) :
    greedyTail (body ++ ')' :: tail) = some tail := by
  have htw : (body ++ ')' :: tail).takeWhile noTerm =
      body ++ ')' :: tail.takeWhile noTerm := by
    rw [takeWhile_append_all _ hb, List.takeWhile_cons_of_pos noTerm_paren]
  have hdw : (body ++ ')' :: tail).dropWhile noTerm = tail.dropWhile noTerm := by
    rw [dropWhile_append_all _ hb, List.dropWhile_cons_of_pos noTerm_paren]
  unfold greedyTail
  rw [htw, hdw, lastParenSplit_last ht]
  simp

theorem greedyTail_sound {rest tail : Str} (h : greedyTail rest = some tail) :
    ∃ body, rest = body ++ ')' :: tail ∧ CleanStr body ∧ Blocked tail := by
  unfold greedyTail at h
  cases hl : lastParenSplit (rest.takeWhile noTerm) with
  | none => rw [hl] at h; exact absurd h (by simp)
  | some ba =>
    obtain ⟨b, a⟩ := ba
    rw [hl] at h
    have htail : tail = a ++ rest.dropWhile noTerm := (Option.some.inj h).symm
    obtain ⟨h1, h2⟩ := lastParenSplit_sound hl
    have hsub : ∀ c ∈ rest.takeWhile noTerm, noTerm c = true :=
      fun c hc => List.mem_takeWhile_imp hc
    have hcb : CleanStr b := fun c hc => hsub c (by rw [h1]; simp [hc])
    have hca : CleanStr a := fun c hc => hsub c (by rw [h1]; simp [hc])
    refine ⟨b, ?_, hcb, ?_⟩
    · conv_lhs => rw [← List.takeWhile_append_dropWhile noTerm rest]
      rw [h1, htail]
      simp
    · unfold Blocked
      rw [htail, takeWhile_append_all _ hca, takeWhile_dropWhile_nil, List.append_nil]
      exact h2

/-! ## Lemmas about the pattern `translate(` -/

theorem patT_eq : patT = subT ++ ['('] := by decide

theorem patT_length : patT.length = 10 := by decide

theorem noTerm_patT : ∀ c ∈ patT, noTerm c = true := by decide

/-- `translate(` has no proper self-overlap (no non-trivial border). -/
theorem pat_no_border : ∀ d, d < 10 → 0 < d → patT.drop d ≠ patT.take (10 - d) := by decide

/-- If the pattern is a prefix of `u ++ patT ++ w`, the occurrence cannot
    start strictly inside the first 10 characters unless `u` is empty:
    `translate(` does not overlap itself. -/
theorem pat_overlap {u w : Str} (h : patT.isPrefixOf (u ++ (patT ++ w)) = true) :
    u = [] ∨ 10 ≤ u.length := by
  by_cases hu : u = []
  · exact Or.inl hu
  right
  by_contra hlen
  push_neg at hlen
  obtain ⟨r, hr⟩ := (isPrefixOf_iff _ _).mp h
  have h10 : patT = (u ++ (patT ++ w)).take 10 := by
    rw [hr, List.take_left' patT_length]
  have h11 : (u ++ (patT ++ w)).take 10 = u ++ (patT ++ w).take (10 - u.length) := by
    rw [List.take_append_eq_append_take, List.take_of_length_le (le_of_lt hlen)]
  have h12 : (patT ++ w).take (10 - u.length) = patT.take (10 - u.length) :=
    List.take_append_of_le_length (by rw [patT_length]; omega)
  rw [h11, h12] at h10
  have key : patT = u ++ patT.take (10 - u.length) := h10
  have hdrop : patT.drop u.length = patT.take (10 - u.length) := by
    conv_lhs => rw [key]
    exact List.drop_left u _
  exact pat_no_border u.length hlen (List.length_pos.mpr hu) hdrop

/-- With at least 10 characters in `u`, a pattern match at the head of
    `u ++ Y` pins down the first 10 characters of `u`. -/
theorem take10_of_isPrefixOf {u Y : Str} (h10 : 10 ≤ u.length)
    (h : patT.isPrefixOf (u ++ Y) = true) : patT = u.take 10 := by
  obtain ⟨r, hr⟩ := (isPrefixOf_iff _ _).mp h
  have : patT = (u ++ Y).take 10 := by rw [hr, List.take_left' patT_length]
  rw [this, List.take_append_eq_append_take, Nat.sub_eq_zero_of_le h10, List.take_zero,
    List.append_nil]

/-- A head pattern match survives replacing everything after the first
    10 characters. -/
theorem isPrefixOf_long {u Y Y' : Str} (h10 : 10 ≤ u.length)
    (h : patT.isPrefixOf (u ++ Y) = true) : patT.isPrefixOf (u ++ Y') = true := by
  apply (isPrefixOf_iff _ _).mpr
  refine ⟨u.drop 10 ++ Y', ?_⟩
  rw [take10_of_isPrefixOf h10 h, ← List.append_assoc, List.take_append_drop]

theorem drop10_append {u Y : Str} (h10 : 10 ≤ u.length) :
    (u ++ Y).drop 10 = u.drop 10 ++ Y :=
  List.drop_append_of_le_length h10

/-! ## Lemmas about `matchTail` and `replaceFrom` -/

theorem matchTail_eq_some {s tail : Str} (h : matchTail s = some tail) :
    ∃ body, s = patT ++ (body ++ ')' :: tail) ∧ CleanStr body ∧ Blocked tail := by
  unfold matchTail at h
  by_cases hp : patT.isPrefixOf s = true
  · rw [if_pos hp] at h
    obtain ⟨r, hr⟩ := (isPrefixOf_iff _ _).mp hp
    have hdr : s.drop 10 = r := by rw [hr]; exact List.drop_left' patT_length
    rw [hdr] at h
    obtain ⟨body, hb, hc, hbl⟩ := greedyTail_sound h
    exact ⟨body, by rw [hr, hb], hc, hbl⟩
  · rw [if_neg hp] at h
    exact absurd h (by simp)

theorem matchTail_pat {body tail : Str} (hb : CleanStr body) (ht : Blocked tail) :
    matchTail (patT ++ (body ++ ')' :: tail)) = some tail := by
  unfold matchTail
  rw [if_pos ((isPrefixOf_iff _ _).mpr ⟨_, rfl⟩), List.drop_left' patT_length,
    greedyTail_clean hb ht]

theorem replaceFrom_head {repl s tail : Str} (hs : s ≠ [])
    (h : matchTail s = some tail) : replaceFrom repl s = repl ++ tail := by
  cases s with
  | nil => exact absurd rfl hs
  | cons c cs => simp [replaceFrom, h]

theorem replaceFrom_cons_none {repl : Str} {c : Char} {cs : Str}
    (h : matchTail (c :: cs) = none) :
    replaceFrom repl (c :: cs) = c :: replaceFrom repl cs := by
  simp [replaceFrom, h]

theorem replaceFrom_skip {repl A z : Str} (h : NoStart A z) :
    replaceFrom repl (A ++ z) = A ++ replaceFrom repl z := by
  induction A with
  | nil => simp
  | cons a A' ih =>
    have h0 : matchTail (a :: (A' ++ z)) = none := by
      have := h [] (a :: A') rfl (by simp)
      simpa using this
    rw [List.cons_append, replaceFrom_cons_none h0,
      ih (fun A₁ A₂ hs hn => h (a :: A₁) A₂ (by rw [hs, List.cons_append]) hn),
      List.cons_append]

/-- The regex match at a fixed position is insensitive to the
    line-terminator-free body between a `translate(` and a following
    `')'`: failure transfers from one clean body to another. -/
theorem matchTail_transfer {u b₁ b₂ z : Str} (hu : u ≠ []) (h1 : CleanStr b₁)
    (h : matchTail (u ++ (patT ++ (b₁ ++ ')' :: z))) = none) :
    matchTail (u ++ (patT ++ (b₂ ++ ')' :: z))) = none := by
  unfold matchTail at h ⊢
  by_cases hp : patT.isPrefixOf (u ++ (patT ++ (b₂ ++ ')' :: z))) = true
  · have h10 : 10 ≤ u.length := by
      rcases pat_overlap hp with h' | h'
      · exact absurd h' hu
      · exact h'
    have hp1 : patT.isPrefixOf (u ++ (patT ++ (b₁ ++ ')' :: z))) = true :=
      isPrefixOf_long h10 hp
    rw [if_pos hp1] at h
    rw [if_pos hp]
    rw [drop10_append h10] at h
    rw [drop10_append h10]
    rw [greedyTail_eq_none] at h ⊢
    unfold Blocked at h ⊢
    by_cases hB : ∀ c ∈ u.drop 10, noTerm c = true
    · exfalso
      apply h
      have hall : ∀ c ∈ (u.drop 10 ++ patT) ++ b₁, noTerm c = true := by
        intro c hc
        rcases List.mem_append.mp hc with hc' | hc'
        · rcases List.mem_append.mp hc' with hc'' | hc''
          · exact hB c hc''
          · exact noTerm_patT c hc''
        · exact h1 c hc'
      have hshape : u.drop 10 ++ (patT ++ (b₁ ++ ')' :: z)) =
          ((u.drop 10 ++ patT) ++ b₁) ++ (')' :: z) := by simp
      rw [hshape, takeWhile_append_all _ hall, List.takeWhile_cons_of_pos noTerm_paren]
      simp
    · push_neg at hB
      obtain ⟨c, hc, hpc⟩ := hB
      have hstop : ∃ c ∈ u.drop 10, noTerm c = false :=
        ⟨c, hc, by simpa using hpc⟩
      rw [takeWhile_append_stop _ hstop] at h
      rw [takeWhile_append_stop _ hstop]
      exact h
  · rw [if_neg hp]

theorem NoStart_transfer {A b₁ b₂ z : Str} (h1 : CleanStr b₁)
    (h : NoStart A (patT ++ (b₁ ++ ')' :: z))) :
    NoStart A (patT ++ (b₂ ++ ')' :: z)) :=
  fun A₁ A₂ hs hn => matchTail_transfer hn h1 (h A₁ A₂ hs hn)

/-- Structure of a `replace` run: either the regex never matched and the
    string is returned unchanged, or the output splits as
    `prefix ++ replacement ++ tail` around a matched
    `translate( body )` region, with no match starting inside the
    prefix, a clean body, and no reachable `')'` in the tail. -/
theorem replaceFrom_char (repl : Str) : ∀ s : Str,
    replaceFrom repl s = s ∨
    ∃ A body tail, s = A ++ (patT ++ (body ++ ')' :: tail)) ∧
      replaceFrom repl s = A ++ (repl ++ tail) ∧
      NoStart A (patT ++ (body ++ ')' :: tail)) ∧ CleanStr body ∧ Blocked tail := by
  intro s
  induction s with
  | nil => exact Or.inl (by simp [replaceFrom])
  | cons c cs ih =>
    cases hmt : matchTail (c :: cs) with
    | some tail =>
      right
      obtain ⟨body, hb, hcb, hbl⟩ := matchTail_eq_some hmt
      refine ⟨[], body, tail, by simpa using hb, ?_, ?_, hcb, hbl⟩
      · rw [replaceFrom_head (by simp) hmt]; simp
      · intro A₁ A₂ hA hne
        exact absurd (List.append_eq_nil.mp hA.symm).2 hne
    | none =>
      rw [replaceFrom_cons_none hmt]
      rcases ih with heq | ⟨A, body, tail, hs, hr, hns, hcb, hbl⟩
      · exact Or.inl (by rw [heq])
      · right
        refine ⟨c :: A, body, tail, ?_, ?_, ?_, hcb, hbl⟩
        · rw [hs]; simp
        · rw [hr]; simp
        · intro A₁ A₂ hA hne
          cases A₁ with
          | nil =>
            have hA2 : A₂ = c :: A := by simpa using hA.symm
            subst hA2
            have : (c :: A) ++ (patT ++ (body ++ ')' :: tail)) = c :: cs := by
              rw [List.cons_append, ← hs]
            rw [this]
            exact hmt
          | cons a A₁' =>
            have h1 : c = a ∧ A = A₁' ++ A₂ := by
              constructor
              · exact (List.cons.injEq .. ▸ hA).1
              · exact (List.cons.injEq .. ▸ hA).2
            exact hns A₁' A₂ h1.2 hne

/-! ## Idempotence of the transform composer -/

theorem space_not_mem_patT : ' ' ∉ patT := by decide

theorem patT_getLast : patT.getLast? = some '(' := by decide

/-- When `e` has no `translate` substring, no regex match starts inside
    `e ++ " "` once a fresh `translate(...)` is appended after it. -/
theorem NoStart_space {e b z : Str} (hc : containsSub subT e = false) :
    NoStart (e ++ [' ']) (patT ++ (b ++ ')' :: z)) := by
  intro A₁ A₂ hsplit hne
  have hnp : ¬ patT.isPrefixOf (A₂ ++ (patT ++ (b ++ ')' :: z))) = true := by
    intro hp
    rcases pat_overlap hp with h0 | h10
    · exact hne h0
    · have hr : A₂ = patT ++ A₂.drop 10 := by
        have hpt := take10_of_isPrefixOf h10 hp
        conv_lhs => rw [← List.take_append_drop 10 A₂]
        rw [← hpt]
      have heq : e ++ [' '] = A₁ ++ (patT ++ A₂.drop 10) := by
        rw [hsplit]
        conv_lhs => rw [hr]
      rcases (A₂.drop 10).eq_nil_or_concat with h0 | ⟨r', a, hr'⟩
      · rw [h0, List.append_nil] at heq
        have h1 : (e ++ [' ']).getLast? = some ' ' := List.getLast?_concat _
        rw [heq] at h1
        rw [List.getLast?_append, patT_getLast] at h1
        simp at h1
      · rw [hr', List.concat_eq_append, ← List.append_assoc, ← List.append_assoc] at heq
        obtain ⟨he2, _⟩ := List.append_inj' heq rfl
        have : containsSub subT e = true := by
          apply (containsSub_iff _ _).mpr
          refine ⟨A₁, '(' :: r', ?_⟩
          rw [he2, patT_eq]
          simp
        rw [this] at hc
        exact absurd hc (by simp)
  simp [matchTail, hnp]

/-- The non-empty/contains branch of the composer. -/
theorem composeTransform_replace {e tv : Str} (he : e ≠ [])
    (hc : containsSub subT e = true) :
    composeTransform e (some tv) = replaceFrom tv e := by
  simp [composeTransform, List.isEmpty_eq_false.mpr he, hc]

/-- The non-empty/no-contains branch of the composer. -/
theorem composeTransform_append {e tv : Str} (he : e ≠ [])
    (hc : containsSub subT e = false) :
    composeTransform e (some tv) = e ++ ' ' :: tv := by
  simp [composeTransform, List.isEmpty_eq_false.mpr he, hc]

theorem mkTranslate_decomp (x y : Str) :
    mkTranslate x y = patT ++ ((x ++ ',' :: y) ++ ')' :: []) := by
  simp [mkTranslate]

theorem mkTranslate_ne_nil (x y : Str) : mkTranslate x y ≠ [] := by
  simp [mkTranslate, patT]

theorem CleanStr_body {x y : Str} (hx : CleanStr x) (hy : CleanStr y) :
    CleanStr (x ++ ',' :: y) := by
  intro c hc
  rcases List.mem_append.mp hc with h | h
  · exact hx c h
  · rcases List.mem_cons.mp h with rfl | h'
    · decide
    · exact hy c h'

theorem Blocked_nil : Blocked ([] : Str) := by simp [Blocked]

theorem containsSub_of_mid (A w : Str) :
    containsSub subT (A ++ (patT ++ w)) = true := by
  apply (containsSub_iff _ _).mpr
  exact ⟨A, '(' :: w, by rw [patT_eq]; simp⟩

/-- Core idempotence of the composer with a well-formed translate value:
    running the composition a second time with the same translate value
    leaves the output unchanged. -/
theorem compose_idem_some (e x y : Str) (hx : CleanStr x) (hy : CleanStr y) :
    composeTransform (composeTransform e (some (mkTranslate x y)))
      (some (mkTranslate x y)) = composeTransform e (some (mkTranslate x y)) := by
  have hcb : CleanStr (x ++ ',' :: y) := CleanStr_body hx hy
  have ht := mkTranslate_decomp x y
  by_cases he : e = []
  · subst he
    rw [show composeTransform [] (some (mkTranslate x y)) = mkTranslate x y from rfl]
    rw [composeTransform_replace (mkTranslate_ne_nil x y)
      (by rw [ht]; exact containsSub_of_mid [] _)]
    conv_lhs => rw [ht]
    rw [replaceFrom_head (by simp [patT]) (matchTail_pat hcb Blocked_nil), ht]
    simp
  · by_cases hcon : containsSub subT e = true
    · rw [composeTransform_replace he hcon]
      rcases replaceFrom_char (mkTranslate x y) e with heq | ⟨A, body, tail, hs, hr, hns, hcb', hbl⟩
      · rw [heq, composeTransform_replace he hcon, heq]
      · rw [hr]
        have hshape : A ++ (mkTranslate x y ++ tail) =
            A ++ (patT ++ ((x ++ ',' :: y) ++ ')' :: tail)) := by
          rw [ht]; simp
        have hne2 : A ++ (mkTranslate x y ++ tail) ≠ [] := by
          simp [mkTranslate, patT]
        rw [composeTransform_replace hne2
          (by rw [hshape]; exact containsSub_of_mid A _)]
        rw [hshape, replaceFrom_skip (NoStart_transfer hcb' hns),
          replaceFrom_head (by simp [patT]) (matchTail_pat hcb hbl), ht]
        simp
    · have hcf : containsSub subT e = false := by simpa using hcon
      rw [composeTransform_append he hcf]
      have hshape : e ++ ' ' :: mkTranslate x y =
          (e ++ [' ']) ++ (patT ++ ((x ++ ',' :: y) ++ ')' :: [])) := by
        rw [ht]; simp
      have hne2 : e ++ ' ' :: mkTranslate x y ≠ [] := by simp
      rw [composeTransform_replace hne2
        (by rw [hshape]; exact containsSub_of_mid (e ++ [' ']) _)]
      rw [hshape, replaceFrom_skip (NoStart_space hcf),
        replaceFrom_head (by simp [patT]) (matchTail_pat hcb Blocked_nil), ht]
      simp

/-- The composer is the identity-preserving on the `null` translate
    value: re-running changes nothing. -/
theorem compose_idem_none (e : Str) :
    composeTransform (composeTransform e none) none = composeTransform e none := by
  by_cases he : e = []
  · subst he; rfl
  · simp [composeTransform, List.isEmpty_eq_false.mpr he]

/-! ## Resolver lemmas -/

/-- The default entry itself never matches: its derived range is
    `0 < width < 0`. -/
theorem default_no_match (w : JsNum) (prev : Option Query) (q : Query)
    (hq : isDefaultQ q = true) : queryMatches w prev q = false := by
  unfold queryMatches queryMin queryMax
  rw [if_pos hq, if_pos hq]
  cases w with
  | none => rfl
  | some x =>
    by_cases h : (0 : ℚ) < x
    · have : ¬ x < (0 : ℚ) := by linarith
      simp [jsGt, jsLt, this]
    · simp [jsGt, jsLt, h]

theorem stepQuery_no_match {w : JsNum} {prev : Option Query} {q : Query}
    (dq : Option Query) (h : queryMatches w prev q = false) :
    stepQuery dq w prev q = .ok [] := by
  simp [stepQuery, h]

theorem stepQuery_match {w : JsNum} {prev : Option Query} {q d : Query}
    (h : queryMatches w prev q = true) :
    stepQuery (some d) w prev q = .ok [d.data, q.data] := by
  simp [stepQuery, h]

/-- An entry whose key fails to parse can never match: its `max` is NaN
    and every comparison against NaN is false. -/
theorem nan_no_match (w : JsNum) (prev : Option Query) (q : Query)
    (hq : isDefaultQ q = false) (hp : parseKeyNum q = none) :
    queryMatches w prev q = false := by
  unfold queryMatches queryMax
  rw [if_neg (by simp [hq])]
  have : keyNum q = none := by simp [keyNum, hp]
  rw [this]
  cases w <;> simp [jsLt]

/-- A width at or above an entry's parsed threshold fails the strict
    `width < max` test. -/
theorem high_no_match (prev : Option Query) (q : Query) (wv : ℚ)
    (hq : isDefaultQ q = false)
    (h : ∀ v : Int, parseKeyNum q = some v → (v : ℚ) ≤ wv) :
    queryMatches (some wv) prev q = false := by
  unfold queryMatches queryMax
  rw [if_neg (by simp [hq])]
  cases hp : parseKeyNum q with
  | none =>
    have : keyNum q = none := by simp [keyNum, hp]
    rw [this]; simp [jsLt]
  | some v =>
    have hkn : keyNum q = some ((v : ℚ)) := by simp [keyNum, hp]
    rw [hkn]
    have : ¬ wv < (v : ℚ) := not_lt.mpr (h v hp)
    simp [jsLt, this]

theorem loop_no_match {dq : Option Query} {w : JsNum} {rest : List Query}
    (h : ∀ prev q, q ∈ rest → queryMatches w prev q = false) :
    ∀ prev0, loopTrace dq w prev0 rest = .ok [] := by
  induction rest with
  | nil => intro _; rfl
  | cons q rest' ih =>
    intro prev0
    rw [loopTrace, stepQuery_no_match dq (h prev0 q (by simp)),
      ih (fun prev q' hq' => h prev q' (by simp [hq']))]
    rfl

/-- With a default entry configured, the loop can never throw. -/
theorem loop_ok {d : Query} {w : JsNum} :
    ∀ (rest : List Query) (prev : Option Query),
      ∃ tr, loopTrace (some d) w prev rest = .ok tr := by
  intro rest
  induction rest with
  | nil => exact fun _ => ⟨[], rfl⟩
  | cons q rest' ih =>
    intro prev
    obtain ⟨tr, htr⟩ := ih (some q)
    by_cases hm : queryMatches w prev q = true
    · exact ⟨[d.data, q.data] ++ tr, by rw [loopTrace, stepQuery_match hm, htr]⟩
    · exact ⟨[] ++ tr,
        by rw [loopTrace, stepQuery_no_match _ (by simpa using hm), htr]⟩

/-- The `min` derived for a non-default entry from the previous entry. -/
theorem queryMin_eq {p : Query} {b : ℚ} {q : Query} (hq : isDefaultQ q = false)
    (hb : prevBound p b) : queryMin (some p) q = some b := by
  rcases hb with ⟨hd, rfl⟩ | ⟨hd, hk⟩
  · simp [queryMin, hq, hd]
  · simp [queryMin, hq, hd, hk]

/-- Below the previous threshold nothing further in an ascending tail
    can match: every `min` from here on is at least `b`. -/
theorem loop_below {dq : Option Query} {wv : ℚ} :
    ∀ (rest : List Query) (p : Query) (b : ℚ), prevBound p b →
      (∀ q ∈ rest, isDefaultQ q = false) → ascThresholds b rest = true →
      wv ≤ b → loopTrace dq (some wv) (some p) rest = .ok [] := by
  intro rest
  induction rest with
  | nil => intro p b _ _ _ _; rfl
  | cons q rest' ih =>
    intro p b hpb hnd hasc hwb
    have hqnd : isDefaultQ q = false := hnd q (by simp)
    rw [ascThresholds] at hasc
    cases hp : parseKeyNum q with
    | none => rw [hp] at hasc; exact absurd hasc (by simp)
    | some v =>
      rw [hp, Bool.and_eq_true, decide_eq_true_eq] at hasc
      obtain ⟨hbv, hasc'⟩ := hasc
      have hmin : queryMin (some p) q = some b := queryMin_eq hqnd hpb
      have hm : queryMatches (some wv) (some p) q = false := by
        unfold queryMatches
        rw [hmin]
        have : ¬ b < wv := not_lt.mpr hwb
        simp [jsGt, this]
      rw [loopTrace, stepQuery_no_match dq hm,
        ih q (v : ℚ) (Or.inr ⟨hqnd, by simp [keyNum, hp]⟩)
          (fun q' hq' => hnd q' (by simp [hq'])) hasc' (by exact le_of_lt (lt_of_le_of_lt hwb hbv))]
      rfl

/-- Loop trichotomy on an ascending non-default tail: either nothing
    matches, or exactly one entry matches and the trace is
    `default.data` then that entry's data. -/
theorem loop_tri {d : Query} {wv : ℚ} :
    ∀ (rest : List Query) (p : Query) (b : ℚ), prevBound p b →
      (∀ q ∈ rest, isDefaultQ q = false) → ascThresholds b rest = true →
      loopTrace (some d) (some wv) (some p) rest = .ok [] ∨
      ∃ q, q ∈ rest ∧ ∃ v : Int, parseKeyNum q = some v ∧ wv < (v : ℚ) ∧
        loopTrace (some d) (some wv) (some p) rest = .ok [d.data, q.data] := by
  intro rest
  induction rest with
  | nil => intro p b _ _ _; exact Or.inl rfl
  | cons q rest' ih =>
    intro p b hpb hnd hasc
    have hqnd : isDefaultQ q = false := hnd q (by simp)
    rw [ascThresholds] at hasc
    cases hp : parseKeyNum q with
    | none => rw [hp] at hasc; exact absurd hasc (by simp)
    | some v =>
      rw [hp, Bool.and_eq_true, decide_eq_true_eq] at hasc
      obtain ⟨hbv, hasc'⟩ := hasc
      have hpbq : prevBound q ((v : Int) : ℚ) := Or.inr ⟨hqnd, by simp [keyNum, hp]⟩
      have hnd' : ∀ q' ∈ rest', isDefaultQ q' = false :=
        fun q' hq' => hnd q' (by simp [hq'])
      by_cases hm : queryMatches (some wv) (some p) q = true
      · right
        have hlt : wv < (v : ℚ) := by
          have := hm
          unfold queryMatches queryMax at this
          rw [if_neg (by simp [hqnd]), Bool.and_eq_true] at this
          have h2 := this.2
          rw [show keyNum q = some ((v : ℚ)) from by simp [keyNum, hp]] at h2
          simpa [jsLt] using h2
        refine ⟨q, by simp, v, hp, hlt, ?_⟩
        rw [loopTrace, stepQuery_match hm,
          loop_below rest' q ((v : Int) : ℚ) hpbq hnd' hasc' (le_of_lt hlt)]
        rfl
      · have hm' : queryMatches (some wv) (some p) q = false := by simpa using hm
        rcases ih q ((v : Int) : ℚ) hpbq hnd' hasc' with h0 | ⟨q', hq', v', hv', hlt', hloop⟩
        · left
          rw [loopTrace, stepQuery_no_match _ hm', h0]
          rfl
        · right
          refine ⟨q', by simp [hq'], v', hv', hlt', ?_⟩
          rw [loopTrace, stepQuery_no_match _ hm', hloop]
          rfl

/-- In an ascending list every parsed threshold is at most the last
    entry's parsed threshold (which exists). -/
theorem asc_le_last :
    ∀ (rest : List Query) (b : ℚ), ascThresholds b rest = true →
      ∀ lq, rest.getLast? = some lq →
        ∃ vL : Int, parseKeyNum lq = some vL ∧
          ∀ q ∈ rest, ∀ v : Int, parseKeyNum q = some v → (v : ℚ) ≤ (vL : ℚ) := by
  intro rest
  induction rest with
  | nil => intro b _ lq h; exact absurd h (by simp)
  | cons q0 rest' ih =>
    intro b hasc lq hlast
    rw [ascThresholds] at hasc
    cases hp : parseKeyNum q0 with
    | none => rw [hp] at hasc; exact absurd hasc (by simp)
    | some v0 =>
      rw [hp, Bool.and_eq_true, decide_eq_true_eq] at hasc
      obtain ⟨hbv, hasc'⟩ := hasc
      cases rest' with
      | nil =>
        have hlq : lq = q0 := by simpa using hlast.symm
        refine ⟨v0, by rw [hlq]; exact hp, ?_⟩
        intro q hq v hv
        have hqq : q = q0 := by simpa using hq
        rw [hqq, hp] at hv
        obtain rfl := Option.some.inj hv
        exact le_refl _
      | cons q1 rest'' =>
        have hlast' : (q1 :: rest'').getLast? = some lq := by
          rw [← hlast, List.getLast?_cons_cons]
        obtain ⟨vL, hvL, hall⟩ := ih ((v0 : Int) : ℚ) hasc' lq hlast'
        refine ⟨vL, hvL, ?_⟩
        intro q hq v hv
        rcases List.mem_cons.mp hq with rfl | hq'
        · rw [hp] at hv
          rw [← Option.some.inj hv]
          rw [ascThresholds] at hasc'
          cases hp1 : parseKeyNum q1 with
          | none => rw [hp1] at hasc'; exact absurd hasc' (by simp)
          | some v1 =>
            rw [hp1, Bool.and_eq_true, decide_eq_true_eq] at hasc'
            have h01 : ((v0 : Int) : ℚ) < ((v1 : Int) : ℚ) := hasc'.1
            have h1L : ((v1 : Int) : ℚ) ≤ ((vL : Int) : ℚ) :=
              hall q1 (by simp) v1 hp1
            linarith
        · exact hall q hq' v hv

/-! ## Attribute applier lemmas -/

/-- When the element is missing, one switch iteration emits nothing. -/
theorem applyAttrStep_false (el : Str) (acc : ElemAcc) (kv : Str × Str) :
    (applyAttrStep false el acc kv).writes = acc.writes := by
  unfold applyAttrStep
  split_ifs <;> simp [styleWriteIf]

/-- When the element is missing the whole attribute loop emits nothing. -/
theorem foldl_writes_false (el : Str) :
    ∀ (attrs : AttrBag) (acc : ElemAcc),
      (attrs.foldl (applyAttrStep false el) acc).writes = acc.writes := by
  intro attrs
  induction attrs with
  | nil => intro acc; rfl
  | cons kv attrs' ih =>
    intro acc
    rw [List.foldl_cons, ih, applyAttrStep_false]

theorem mem_ite_nil {c : Prop} [Decidable c] {w wr : Write}
    (h : wr ∈ (if c then [w] else [])) : wr = w := by
  split at h
  · exact List.mem_singleton.mp h
  · exact absurd h (by simp)

theorem styleWriteIf_elem {ex : Bool} {el n v : Str} {wr : Write}
    (h : wr ∈ styleWriteIf ex el n v) : wr.elemId = el := by
  unfold styleWriteIf at h
  cases ex with
  | false => exact absurd h (by simp)
  | true =>
    rcases List.mem_singleton.mp (by simpa using h) with rfl
    rfl

/-- Every write emitted by the attribute loop targets the element id the
    loop runs for. -/
theorem foldl_writes_elem (ex : Bool) (el : Str) :
    ∀ (attrs : AttrBag) (acc : ElemAcc),
      (∀ wr ∈ acc.writes, wr.elemId = el) →
      ∀ wr ∈ (attrs.foldl (applyAttrStep ex el) acc).writes, wr.elemId = el := by
  intro attrs
  induction attrs with
  | nil => intro acc h; exact h
  | cons kv attrs' ih =>
    intro acc h
    rw [List.foldl_cons]
    apply ih
    intro wr hwr
    unfold applyAttrStep at hwr
    split_ifs at hwr
    · exact h wr hwr
    · exact h wr hwr
    · rcases List.mem_append.mp hwr with h' | h'
      · exact h wr h'
      · exact styleWriteIf_elem h'
    · rcases List.mem_append.mp hwr with h' | h'
      · exact h wr h'
      · exact styleWriteIf_elem h'
    · exact h wr hwr
    · exact h wr hwr

/-- `applyData` skips a missing element entirely: no write is emitted
    for it (applyStyle and applyAttribute both guard on the element). -/
theorem elemWrites_missing {doc : Str → Bool} {el : Str} (attrs : AttrBag)
    (h : doc el = false) : elemWrites doc el attrs = [] := by
  simp [elemWrites, h, foldl_writes_false]

/-- Every write emitted by `elemWrites` targets an element that resolves
    in the host document. -/
theorem elemWrites_resolve {doc : Str → Bool} {el : Str} (attrs : AttrBag) :
    ∀ wr ∈ elemWrites doc el attrs, doc wr.elemId = true := by
  intro wr hwr
  cases hex : doc el with
  | false => rw [elemWrites_missing attrs hex] at hwr; exact absurd hwr (by simp)
  | true =>
    have helem : wr.elemId = el := by
      simp only [elemWrites, hex] at hwr
      rcases List.mem_append.mp hwr with h' | h'
      · exact foldl_writes_elem true el attrs _ (by simp) wr h'
      · rcases mem_ite_nil h' with rfl
        rfl
    rw [helem, hex]

theorem applyData_cons (doc : Str → Bool) (el : Str) (attrs : AttrBag)
    (rest : Patch) :
    applyData doc ((el, attrs) :: rest) = elemWrites doc el attrs ++ applyData doc rest := by
  simp [applyData]

theorem applyData_resolve {doc : Str → Bool} :
    ∀ (patch : Patch), ∀ wr ∈ applyData doc patch, doc wr.elemId = true := by
  intro patch
  induction patch with
  | nil => intro wr hwr; exact absurd hwr (by simp [applyData])
  | cons p rest ih =>
    intro wr hwr
    obtain ⟨el, attrs⟩ := p
    rw [applyData_cons] at hwr
    rcases List.mem_append.mp hwr with h' | h'
    · exact elemWrites_resolve attrs wr h'
    · exact ih wr h'

/-! ## Totality of process -/

theorem parseKeyNum_default {d : Query} (hd : isDefaultQ d = true) :
    parseKeyNum d = none := by
  have hq : d.query = "default".toList := by simpa [isDefaultQ] using hd
  unfold parseKeyNum
  rw [hq]
  decide

theorem keyNum_default {d : Query} (hd : isDefaultQ d = true) : keyNum d = none := by
  unfold keyNum
  rw [parseKeyNum_default hd]
  rfl

theorem findDefault_cons {d : Query} (rest : List Query) (hd : isDefaultQ d = true) :
    findDefault (d :: rest) = some d := by
  unfold findDefault
  exact List.find?_cons_of_pos _ hd

/-- With a non-empty list and a configured default entry, one call to
    `process` completes without any runtime error, at every width. -/
theorem process_total {qs : List Query} {w : JsNum} (hne : qs ≠ [])
    (hex : ∃ q ∈ qs, isDefaultQ q = true) :
    ∃ tr, processTrace qs w = .ok tr := by
  obtain ⟨d, hd⟩ : ∃ d, findDefault qs = some d := by
    cases hfd : findDefault qs with
    | some d => exact ⟨d, rfl⟩
    | none =>
      obtain ⟨q, hq, hqd⟩ := hex
      have := List.find?_eq_none.mp hfd q hq
      rw [hqd] at this
      exact absurd this (by simp)
  obtain ⟨lq, hlq⟩ : ∃ lq, qs.getLast? = some lq :=
    Option.isSome_iff_exists.mp (List.getLast?_isSome.mpr hne)
  obtain ⟨lt, hlt⟩ := loop_ok (d := d) (w := w) qs none
  by_cases hgt : jsGt w (keyNum lq) = true
  · have hlc : lastCheck (some d) w qs = .ok [d.data] := by
      simp [lastCheck, hlq, hgt]
    refine ⟨lt ++ [d.data], ?_⟩
    unfold processTrace
    rw [hd, hlt, hlc]
  · have hgt' : jsGt w (keyNum lq) = false := by simpa using hgt
    have hlc : lastCheck (some d) w qs = .ok [] := by
      simp [lastCheck, hlq, hgt']
    refine ⟨lt ++ [], ?_⟩
    unfold processTrace
    rw [hd, hlt, hlc]

/-! ## The claims -/

/-- C1 (counterexample): on the C1 variation list the code applies the
    default's `fill:"red"` **and** the `">400"` entry's `fill:"blue"` at
    width 300 (the parsed 400 is the range's upper bound, so 0<300<400
    matches), and applies `fill:"red"` alone at width 500 — the claim's
    stated outcomes at both widths are false. -/
theorem c1_counterexample :
    processWrites docHasA qsC1 (some 300) =
      .ok [⟨true, "a".toList, "fill".toList, "red".toList⟩,
        ⟨true, "a".toList, "fill".toList, "blue".toList⟩] ∧
    processWrites docHasA qsC1 (some 500) =
      .ok [⟨true, "a".toList, "fill".toList, "red".toList⟩] ∧
    finalStyleValue [⟨true, "a".toList, "fill".toList, "red".toList⟩]
      "a".toList "fill".toList = some "red".toList ∧
    ("red".toList : Str) ≠ "blue".toList := by
  refine ⟨by decide, by decide, by decide, by decide⟩

/-- C1 (amended): at width 300 resolution applies `fill:"red"` then
    `fill:"blue"` to element `a` (final observed fill `"blue"`), and at
    width 500 it applies `fill:"red"` alone (final observed fill
    `"red"`): a key `">400"` acts as the upper bound of its range and a
    width above the last threshold reverts to the default alone. -/
theorem c1_amended :
    processWrites docHasA qsC1 (some 300) =
      .ok [⟨true, "a".toList, "fill".toList, "red".toList⟩,
        ⟨true, "a".toList, "fill".toList, "blue".toList⟩] ∧
    finalStyleValue [⟨true, "a".toList, "fill".toList, "red".toList⟩,
      ⟨true, "a".toList, "fill".toList, "blue".toList⟩]
      "a".toList "fill".toList = some "blue".toList ∧
    processWrites docHasA qsC1 (some 500) =
      .ok [⟨true, "a".toList, "fill".toList, "red".toList⟩] ∧
    finalStyleValue [⟨true, "a".toList, "fill".toList, "red".toList⟩]
      "a".toList "fill".toList = some "red".toList := by
  refine ⟨by decide, by decide, by decide, by decide⟩

/-- C2 (counterexample): the regex `/translate\((.*)\)/` is greedy, so
    composing `"translate(1,1) scale(2)"` with `"translate(10,5)"`
    consumes everything up to the last `')'` — the `scale(2)` token is
    destroyed, refuting the claimed output
    `"translate(10,5) scale(2)"`. -/
theorem c2_counterexample :
    composeTransform "translate(1,1) scale(2)".toList
        (some "translate(10,5)".toList) ≠
      "translate(10,5) scale(2)".toList ∧
    composeTransform "translate(1,1) scale(2)".toList
        (some "translate(10,5)".toList) =
      "translate(10,5)".toList := by
  refine ⟨by decide, by decide⟩

/-- C2 (amended): composing replaces the region from the first
    `translate(` through the **last** reachable `')'` (greedy match), so
    transform functions after the translate token are absorbed while
    functions before it are preserved:
    `compose("translate(1,1) scale(2)", "translate(10,5)")` yields
    `"translate(10,5)"`, and
    `compose("rotate(45) translate(1,1)", "translate(10,5)")` yields
    `"rotate(45) translate(10,5)"`. -/
theorem c2_amended :
    composeTransform "translate(1,1) scale(2)".toList
        (some "translate(10,5)".toList) = "translate(10,5)".toList ∧
    composeTransform "rotate(45) translate(1,1)".toList
        (some "translate(10,5)".toList) = "rotate(45) translate(10,5)".toList := by
  refine ⟨by decide, by decide⟩

/-- C3 (counterexample): on the spec-valid list
    `[">200", "default", ">400"]` (one default entry, non-defaults in
    ascending threshold order) at width 100, one `process` call applies
    **two** distinct non-default variations in the same cycle: the entry
    after the default gets `min = 0` again, so the ranges `(0,200)` and
    `(0,400)` overlap. -/
theorem c3_counterexample :
    processTrace qsMid (some 100) =
      .ok [qDefRed.data, qGt200Green.data, qDefRed.data, qGt400Blue.data] ∧
    isDefaultQ qGt200Green = false ∧ isDefaultQ qGt400Blue = false ∧
    isDefaultQ qDefRed = true ∧
    ascThresholds 0 [qGt200Green, qGt400Blue] = true ∧
    qGt200Green.data ≠ qGt400Blue.data ∧
    qGt200Green.data ≠ qDefRed.data ∧ qGt400Blue.data ≠ qDefRed.data := by
  refine ⟨by decide, by decide, by decide, by decide, by decide, by decide, by decide,
    by decide⟩

/-- C3 (amended): when the default entry comes **first** and the
    non-default entries follow with strictly ascending parsed
    thresholds, every resolution cycle has exactly one of three
    outcomes: nothing applied (gap/NaN width), the default's data alone
    (width above the last threshold), or the default's data followed by
    exactly one matched non-default entry's data. -/
theorem c3_amended (d : Query) (rest : List Query) (w : JsNum)
    (hd : isDefaultQ d = true) (hnd : ∀ q ∈ rest, isDefaultQ q = false)
    (hasc : ascThresholds 0 rest = true) :
    ∃ tr, processTrace (d :: rest) w = .ok tr ∧
      (tr = [] ∨ tr = [d.data] ∨ ∃ q ∈ rest, tr = [d.data, q.data]) := by
  have hfd : findDefault (d :: rest) = some d := findDefault_cons rest hd
  obtain ⟨lq0, hlq0⟩ : ∃ lq, (d :: rest).getLast? = some lq :=
    Option.isSome_iff_exists.mp (List.getLast?_isSome.mpr (by simp))
  cases w with
  | none =>
    have hloop : loopTrace (some d) none none (d :: rest) = .ok [] := by
      apply loop_no_match
      intro prev q _
      rfl
    have hlast : lastCheck (some d) none (d :: rest) = .ok [] := by
      simp [lastCheck, hlq0, show jsGt none (keyNum lq0) = false from rfl]
    refine ⟨[], ?_, Or.inl rfl⟩
    unfold processTrace
    rw [hfd, hloop, hlast]
    rfl
  | some wv =>
    have hstep : stepQuery (some d) (some wv) none d = .ok [] :=
      stepQuery_no_match _ (default_no_match _ _ _ hd)
    have hpb : prevBound d 0 := Or.inl ⟨hd, rfl⟩
    rcases loop_tri rest d 0 hpb hnd hasc with h0 | ⟨q, hq, v, hv, hlt, hloopm⟩
    · have hloop : loopTrace (some d) (some wv) none (d :: rest) = .ok [] := by
        rw [loopTrace, hstep, h0]
        rfl
      by_cases hgt : jsGt (some wv) (keyNum lq0) = true
      · have hlast : lastCheck (some d) (some wv) (d :: rest) = .ok [d.data] := by
          simp [lastCheck, hlq0, hgt]
        refine ⟨[d.data], ?_, Or.inr (Or.inl rfl)⟩
        unfold processTrace
        rw [hfd, hloop, hlast]
        rfl
      · have hgt' : jsGt (some wv) (keyNum lq0) = false := by simpa using hgt
        have hlast : lastCheck (some d) (some wv) (d :: rest) = .ok [] := by
          simp [lastCheck, hlq0, hgt']
        refine ⟨[], ?_, Or.inl rfl⟩
        unfold processTrace
        rw [hfd, hloop, hlast]
        rfl
    · have hloop : loopTrace (some d) (some wv) none (d :: rest) =
          .ok [d.data, q.data] := by
        rw [loopTrace, hstep, hloopm]
        rfl
      have hrne : rest ≠ [] := by
        intro h
        rw [h] at hq
        exact absurd hq (by simp)
      obtain ⟨lq, hlq⟩ : ∃ lq, rest.getLast? = some lq :=
        Option.isSome_iff_exists.mp (List.getLast?_isSome.mpr hrne)
      have hlq' : (d :: rest).getLast? = some lq := by
        have : (d :: rest) = [d] ++ rest := rfl
        rw [this, List.getLast?_append, hlq]
        rfl
      obtain ⟨vL, hvL, hall⟩ := asc_le_last rest 0 hasc lq hlq
      have hwL : wv < ((vL : Int) : ℚ) := lt_of_lt_of_le hlt (hall q hq v hv)
      have hgt' : jsGt (some wv) (keyNum lq) = false := by
        rw [show keyNum lq = some ((vL : ℚ)) from by simp [keyNum, hvL]]
        simp [jsGt]
        linarith
      have hlast : lastCheck (some d) (some wv) (d :: rest) = .ok [] := by
        simp [lastCheck, hlq', hgt']
      refine ⟨[d.data, q.data], ?_, Or.inr (Or.inr ⟨q, hq, rfl⟩)⟩
      unfold processTrace
      rw [hfd, hloop, hlast]
      rfl

/-- C3 (witness): the amended trichotomy at the C1 list and width 300. -/
theorem c3_amended_witness :
    ∃ tr, processTrace (qDefRed :: [qGt400Blue]) (some 300) = .ok tr ∧
      (tr = [] ∨ tr = [qDefRed.data] ∨ ∃ q ∈ [qGt400Blue], tr = [qDefRed.data, q.data]) :=
  c3_amended qDefRed [qGt400Blue] (some 300) (by decide)
    (by decide) (by decide)

/-- C4 (counterexample): on the spec-valid list
    `[">200", "default", ">400"]` the entry `">400"` (position 2,
    immediately preceded by the default) gets `min = 0` from the code,
    while the claimed rule "previous non-default entry's threshold, the
    default being excluded wherever it appears" demands `min = 200`. -/
theorem c4_counterexample :
    queryMin (some qDefRed) qGt400Blue = some 0 ∧
    claimedMin qsMid 2 = some 200 ∧
    queryMin (some qDefRed) qGt400Blue ≠ claimedMin qsMid 2 := by
  refine ⟨by decide, by decide, by decide⟩

/-- C4 (amended): the resolver derives `max` as the integer parsed from
    the entry's own key after dropping its first character, and `min` as
    0 when the entry is first or the **immediately preceding** list
    entry is the default, and otherwise as the immediately preceding
    entry's parsed threshold; in particular, when the immediately
    preceding entry is non-default, `min` equals that entry's `max`
    (range continuity). -/
theorem c4_amended (p q : Query) (hq : isDefaultQ q = false) :
    queryMin (some p) q = (if isDefaultQ p = true then some 0 else keyNum p) ∧
    (isDefaultQ p = false → queryMin (some p) q = queryMax p) ∧
    queryMin none q = some 0 ∧
    queryMax q = keyNum q := by
  refine ⟨?_, ?_, ?_, ?_⟩
  · by_cases hp : isDefaultQ p = true
    · simp [queryMin, hq, hp]
    · have hp' : isDefaultQ p = false := by simpa using hp
      simp [queryMin, hq, hp']
  · intro hp
    simp [queryMin, queryMax, hq, hp]
  · simp [queryMin, hq]
  · simp [queryMax, hq]

/-- C4 (witness): the amended derivation at two concrete adjacent
    non-default entries, giving range continuity `min = previous max`. -/
theorem c4_amended_witness :
    queryMin (some qGt200Green) qGt400Blue =
      (if isDefaultQ qGt200Green = true then some 0 else keyNum qGt200Green) ∧
    (isDefaultQ qGt200Green = false →
      queryMin (some qGt200Green) qGt400Blue = queryMax qGt200Green) ∧
    queryMin none qGt400Blue = some 0 ∧
    queryMax qGt400Blue = keyNum qGt400Blue :=
  c4_amended qGt200Green qGt400Blue (by decide)

/-- C5 (counterexample): with the malformed key `">abc"` in the list,
    one `process` call at width 100 completes normally with an empty
    trace — no parse failure is propagated to the caller, refuting the
    claimed fatal configuration error. -/
theorem c5_counterexample :
    processTrace qsBad (some 100) = .ok [] ∧
    parseKeyNum qBadKey = none := by
  refine ⟨by decide, by decide⟩

/-- C5 (amended): a non-default key with a non-numeric suffix parses to
    NaN; no failure is raised or propagated — every range comparison
    against NaN is false, so the malformed entry silently never matches,
    and the resolution cycle completes normally whenever the list is
    non-empty and a default entry is configured. -/
theorem c5_amended :
    (∀ (dq : Option Query) (w : JsNum) (prev : Option Query) (q : Query),
      isDefaultQ q = false → parseKeyNum q = none →
      stepQuery dq w prev q = .ok []) ∧
    (∀ (qs : List Query) (w : JsNum), qs ≠ [] →
      (∃ q ∈ qs, isDefaultQ q = true) → ∃ tr, processTrace qs w = .ok tr) := by
  constructor
  · intro dq w prev q hq hp
    exact stepQuery_no_match dq (nan_no_match w prev q hq hp)
  · intro qs w hne hex
    exact process_total hne hex

/-- C5 (witness): the amended behaviour at the malformed list `qsBad`
    and width 100. -/
theorem c5_amended_witness :
    stepQuery (some qDefRed) (some 100) (some qDefRed) qBadKey = .ok [] ∧
    ∃ tr, processTrace qsBad (some 100) = .ok tr :=
  ⟨c5_amended.1 (some qDefRed) (some 100) (some qDefRed) qBadKey (by decide) (by decide),
    c5_amended.2 qsBad (some 100) (by decide) (by decide)⟩

/-- C6: a non-default entry matches exactly when
    `min < width < max` with both bounds strictly exclusive (and only
    when none of the three numbers is NaN); consequently, at a width
    exactly equal to an entry's parsed threshold `t`, neither that entry
    (whose `max` is `t`) nor the following entry (whose `min` is `t`)
    matches. -/
theorem c6_strict_boundaries :
    (∀ (w : JsNum) (prev : Option Query) (q : Query),
      queryMatches w prev q = true ↔
        ∃ wv mn mx : ℚ, w = some wv ∧ queryMin prev q = some mn ∧
          queryMax q = some mx ∧ mn < wv ∧ wv < mx) ∧
    (∀ (p q : Query) (prev : Option Query) (t : Int),
      isDefaultQ p = false → isDefaultQ q = false → parseKeyNum p = some t →
      queryMatches (some ((t : ℚ))) prev p = false ∧
      queryMatches (some ((t : ℚ))) (some p) q = false) := by
  constructor
  · intro w prev q
    unfold queryMatches
    cases w with
    | none => simp [jsGt]
    | some wv =>
      cases hmn : queryMin prev q with
      | none => simp [jsGt]
      | some mn =>
        cases hmx : queryMax q with
        | none => simp [jsGt, jsLt]
        | some mx => simp [jsGt, jsLt, And.comm]
  · intro p q prev t hp hq hpt
    constructor
    · refine high_no_match prev p ((t : ℚ)) hp ?_
      intro v hv
      rw [hpt] at hv
      obtain rfl := Option.some.inj hv
      exact le_refl _
    · unfold queryMatches
      rw [queryMin_eq (b := ((t : Int) : ℚ)) hq (Or.inr ⟨hp, by simp [keyNum, hpt]⟩)]
      simp [jsGt]

/-- C6 (witness): at width exactly 400, neither the `">400"` entry nor
    the adjacent `">600"` entry matches. -/
theorem c6_witness :
    queryMatches (some (((400 : Int) : ℚ))) none qGt400Blue = false ∧
    queryMatches (some (((400 : Int) : ℚ))) (some qGt400Blue) qGt600 = false :=
  c6_strict_boundaries.2 qGt400Blue qGt600 none 400 (by decide) (by decide) (by decide)

/-- C7: for every measured width strictly greater than the threshold
    parsed from the last entry (non-default, with every non-default
    threshold in the list at most the last one, as the ascending-order
    invariant guarantees), `process` applies the default variation's
    data alone — reverting to baseline. -/
theorem c7_above_last (qs : List Query) (d lq : Query) (tL : Int) (wv : ℚ)
    (hd : findDefault qs = some d) (hlq : qs.getLast? = some lq)
    (_hlqnd : isDefaultQ lq = false) (hptL : parseKeyNum lq = some tL)
    (hbound : ∀ q ∈ qs, isDefaultQ q = false →
      jsLt (some ((tL : ℚ))) (keyNum q) = false)
    (hgt : (tL : ℚ) < wv) :
    processTrace qs (some wv) = .ok [d.data] := by
  have hloop : loopTrace (some d) (some wv) none qs = .ok [] := by
    apply loop_no_match
    intro prev q hq
    by_cases hqd : isDefaultQ q = true
    · exact default_no_match _ _ _ hqd
    · have hqd' : isDefaultQ q = false := by simpa using hqd
      apply high_no_match _ _ _ hqd'
      intro v hv
      have hb := hbound q hq hqd'
      rw [show keyNum q = some ((v : ℚ)) from by simp [keyNum, hv]] at hb
      have hnlt : ¬ ((tL : ℚ) < (v : ℚ)) := by simpa [jsLt] using hb
      have := not_lt.mp hnlt
      linarith
  have hgtb : jsGt (some wv) (keyNum lq) = true := by
    rw [show keyNum lq = some ((tL : ℚ)) from by simp [keyNum, hptL]]
    simp [jsGt, hgt]
  have hlc : lastCheck (some d) (some wv) qs = .ok [d.data] := by
    simp [lastCheck, hlq, hgtb]
  unfold processTrace
  rw [hd, hloop, hlc]
  rfl

/-- C7 (witness): width 500 on the C1 list applies the default alone. -/
theorem c7_witness : processTrace qsC1 (some 500) = .ok [qDefRed.data] :=
  c7_above_last qsC1 qDefRed qGt400Blue 400 500 (by decide) (by decide) (by decide)
    (by decide) (by decide) (by decide)

/-- C8: an element id in an applied patch that does not resolve in the
    host document is skipped silently — no style write and no attribute
    write is emitted for it (both `applyStyle` and `applyAttribute`
    guard on the element), the remaining element ids of the patch are
    still processed identically, and every write that is emitted targets
    an element that resolves. -/
theorem c8_missing_element (doc : Str → Bool) (el : Str) (attrs : AttrBag)
    (rest : Patch) (h : doc el = false) :
    applyData doc ((el, attrs) :: rest) = applyData doc rest ∧
    (∀ wr ∈ applyData doc ((el, attrs) :: rest), doc wr.elemId = true) := by
  constructor
  · rw [applyData_cons, elemWrites_missing attrs h]
    rfl
  · intro wr hwr
    exact applyData_resolve _ wr hwr

/-- C8 (witness): the patch entry for the unresolvable id `zz` is
    skipped while the entry for `a` is still processed. -/
theorem c8_witness :
    applyData docHasA
        [("zz".toList, [("fill".toList, "red".toList)]),
          ("a".toList, [("fill".toList, "red".toList)])] =
      applyData docHasA [("a".toList, [("fill".toList, "red".toList)])] ∧
    (∀ wr ∈ applyData docHasA
        [("zz".toList, [("fill".toList, "red".toList)]),
          ("a".toList, [("fill".toList, "red".toList)])],
      docHasA wr.elemId = true) :=
  c8_missing_element docHasA "zz".toList [("fill".toList, "red".toList)]
    [("a".toList, [("fill".toList, "red".toList)])] (by decide)

/-- C9: transform composition is idempotent — for every existing
    expression `e` and translate value `t` (null, or a
    `translate(X,Y)` string whose components contain no line terminator
    and no `'$'`, the shapes the applier builds), composing the result
    again with the same `t` returns it unchanged:
    `compose(compose(e,t),t) = compose(e,t)`.  In particular a re-run
    rewrites nothing, so it cannot reorder non-translate components. -/
theorem c9_compose_idempotent (e : Str) (tv : Option Str)
    (htv : tv = none ∨ ∃ x y : Str, tv = some (mkTranslate x y) ∧
      CleanStr x ∧ CleanStr y ∧ '$' ∉ x ∧ '$' ∉ y) :
    composeTransform (composeTransform e tv) tv = composeTransform e tv := by
  rcases htv with rfl | ⟨x, y, rfl, hx, hy, _, _⟩
  · exact compose_idem_none e
  · exact compose_idem_some e x y hx hy

/-- C9 (witness): idempotence at `e = "rotate(45)"`,
    `t = translate(10,5)`. -/
theorem c9_witness :
    composeTransform
        (composeTransform "rotate(45)".toList
          (some (mkTranslate "10".toList "5".toList)))
        (some (mkTranslate "10".toList "5".toList)) =
      composeTransform "rotate(45)".toList
        (some (mkTranslate "10".toList "5".toList)) :=
  c9_compose_idempotent "rotate(45)".toList
    (some (mkTranslate "10".toList "5".toList))
    (Or.inr ⟨"10".toList, "5".toList, rfl, by decide, by decide, by decide, by decide⟩)

/-- C10: for every non-empty variation list containing an entry with
    key `"default"`, one `process` call completes without raising any
    error at every measured width (NaN included): a malformed
    non-default key parses to NaN, all range comparisons against NaN
    are false, and such an entry silently never matches instead of
    failing the cycle. -/
theorem c10_process_never_throws (qs : List Query) (w : JsNum) (hne : qs ≠ [])
    (hex : ∃ q ∈ qs, isDefaultQ q = true) :
    (∃ tr, processTrace qs w = .ok tr) ∧
    (∀ (prev : Option Query) (q : Query), q ∈ qs → isDefaultQ q = false →
      parseKeyNum q = none → stepQuery (findDefault qs) w prev q = .ok []) := by
  constructor
  · exact process_total hne hex
  · intro prev q _ hqd hqn
    exact stepQuery_no_match _ (nan_no_match w prev q hqd hqn)

/-- C10 (witness): the malformed list `qsBad` resolves without error at
    width 100, and its malformed entry never matches. -/
theorem c10_witness :
    (∃ tr, processTrace qsBad (some 100) = .ok tr) ∧
    (∀ (prev : Option Query) (q : Query), q ∈ qsBad → isDefaultQ q = false →
      parseKeyNum q = none →
      stepQuery (findDefault qsBad) (some 100) prev q = .ok []) :=
  c10_process_never_throws qsBad (some 100) (by decide) (by decide)

end NuSvg
